import Mathlib

/-!
Verification of the igo transliterator (indented-syntax Go dialect).

This file gives a shallow embedding of the parts of the program that the
checked properties talk about:

* `src/main.go` — the CLI subcommand table and dispatch (`toCmd`, `main`);
* `src/to_go/to_go.go` — the curly-syntax emitter core: the whitespace-item
  buffer (`writeWhitespace`), the token-combination guard (`mayCombine`),
  the source-gap newline insertion (`nlimit` and the insertion block of
  `printer.print`), the comment machinery (`commentBefore`, the
  needs-linebreak decision of `intersperseComments`, `writeCommentSuffix`,
  `writeComment` with its line-directive handling), and the `trimmer`
  io.Writer filter;
* `src/ast/print.igo` — the debug pretty-printer with its pointer map.

Machine integers of the Go source are modelled as `Int`/`Nat`; bytes as
`Nat` (tab = 9, newline = 10, vtab = 11, formfeed = 12, blank = 32,
tabwriter.Escape = 255).
-/

namespace Igo

/-! ## CLI front end (src/main.go) -/

/-- The `Cmd` enumeration of src/main.go (`INVALID`, `COMPILE`, `PARSE`,
`BUILD`). -/
inductive Cmd where
  | INVALID | COMPILE | PARSE | BUILD
  deriving DecidableEq, Repr

/-- The `commands` table of src/main.go: a slice indexed by `Cmd` with
`COMPILE: "compile"`, `PARSE: "parse"`, `BUILD: "build"`; index 0
(`INVALID`) is the zero value `""`. -/
def commands : List String := ["", "compile", "parse", "build"]

/-- Index-to-`Cmd` conversion (`Cmd(i)` in Go, for the indices that occur
in `commands`). -/
def idxToCmd : Nat → Cmd
  | 1 => .COMPILE
  | 2 => .PARSE
  | 3 => .BUILD
  | _ => .INVALID

/-- `toCmd` of src/main.go: scan `commands` for the first entry equal to
`c` and return its index as a `Cmd`; return `Cmd(0)` when nothing
matches. -/
def toCmd (c : String) : Cmd :=
  match commands.findIdx? (fun s => s == c) with
  | some i => idxToCmd i
  | none => .INVALID

/-- The conversion targets of the `cmd` package: `cmd.GO` and `cmd.IGO`
(the argument of `cmd.To` selected by `main`). -/
inductive Target where
  | GO | IGO
  deriving DecidableEq, Repr

/-- The `switch command` of `main` in src/main.go: `PARSE` runs
`cmd.To(cmd.IGO, paths)`, `COMPILE` runs `cmd.To(cmd.GO, paths)`, and
every other value (including `BUILD`) falls to the default branch, which
prints "Invalid command" and the usage synopsis (no conversion runs). -/
def dispatch : Cmd → Option Target
  | .PARSE => some .IGO
  | .COMPILE => some .GO
  | _ => none

/-- The two surface syntaxes of the language. -/
inductive SyntaxKind where
  | curly | indented
  deriving DecidableEq, Repr

/-- Modelled from the spec: the conversion driver `cmd.To` is not under
src/ (only `main` calls it). Per the repository README ("igo parse # will
convert any *.go file in *.igo", "igo compile # will convert *.igo source
code in *.go") and the spec's file-name convention (curly-syntax files
end in `.go`, indented-syntax files end in `.igo`, and the CLI chooses
the opposite extension for output), `cmd.To(t, paths)` emits the syntax
named by its target `t`: `cmd.GO` emits curly-syntax `.go` output and
`cmd.IGO` emits indented-syntax `.igo` output. -/
def targetSyntaxOf : Target → SyntaxKind
  | .GO => .curly
  | .IGO => .indented

/-- Modelled from the spec (same sources as `targetSyntaxOf`): the input
syntax read by `cmd.To` for a given target is the opposite surface
syntax. -/
def sourceSyntaxOf : Target → SyntaxKind
  | .GO => .indented
  | .IGO => .curly

/-! ## Emitter core: newline limiting (src/to_go/to_go.go) -/

/-- The constant `maxNewlines = 2` of src/to_go/to_go.go. -/
def maxNewlines : Int := 2

/-- `nlimit` of src/to_go/to_go.go: limit `n` to `maxNewlines`. -/
def nlimit (n : Int) : Int :=
  if n > maxNewlines then maxNewlines else n

/-- The vertical-separator insertion block of `printer.print`
(src/to_go/to_go.go lines 722-736): when no implied semicolon is
pending, insert `nlimit (next.Line - p.pos.Line)` line breaks, writing
one fewer when a newline was already written during comment flushing and
the limit was reached; `writeByte` runs only for a positive count.
Returns the number of vertical separator bytes written. -/
def insertedSeparators (impliedSemi wroteNewline : Bool) (gap : Int) : Int :=
  if impliedSemi then 0
  else
    let n := nlimit gap
    let n2 := if wroteNewline = true ∧ n = maxNewlines then maxNewlines - 1 else n
    if n2 > 0 then n2 else 0

/-! ## Emitter core: token-combination guard (src/to_go/to_go.go) -/

/-- The token kinds of `github.com/DAddYE/igo/token` that the embedded
printer fragments mention. `ILLEGAL` is the zero value recorded in
`p.lastTok` after whitespace. -/
inductive GoTok where
  | ILLEGAL | INT | IDENT | STRING | ADD | SUB | MUL | QUO | LSS | AND
  | XOR | PERIOD | LBRACE | RBRACE | EOF
  deriving DecidableEq, Repr

/-- `mayCombine` of src/to_go/to_go.go: whether the previous token and
the first byte of the next token would combine into a different token. -/
def mayCombine (prev : GoTok) (next : Char) : Bool :=
  match prev with
  | .INT => next == '.'
  | .ADD => next == '+'
  | .SUB => next == '-'
  | .QUO => next == '*'
  | .LSS => next == '-' || next == '<'
  | .AND => next == '&' || next == '^'
  | _ => false

/-- `x.String()` for the operator and punctuation tokens that the
embedded print steps pass as `token.Token` arguments. -/
def tokString : GoTok → List Char
  | .PERIOD => ['.']
  | .ADD => ['+']
  | .SUB => ['-']
  | .MUL => ['*']
  | .QUO => ['/']
  | .LSS => ['<']
  | .AND => ['&']
  | .XOR => ['^']
  | .LBRACE => ['\x7b']
  | .RBRACE => ['\x7d']
  | _ => []

/-- Printer state for the token path of `printer.print`: the output
bytes, the last printed token (`p.lastTok`) and the pending whitespace
buffer, with whitespace items already reduced to the bytes they write. -/
structure MiniPrinter where
  out : List Char
  lastTok : GoTok
  wsbuf : List Char
  deriving DecidableEq, Repr

/-- The argument kinds of `printer.print` that the embedded fragment
covers: `*ast.Ident` (sets `lastTok` to `IDENT`), `*ast.BasicLit` (sets
`lastTok` to the literal kind) and `token.Token`. -/
inductive PrintArg where
  | identArg (name : List Char)
  | basicLit (kind : GoTok) (value : List Char)
  | tokArg (t : GoTok)
  deriving DecidableEq, Repr

/-- One step of `printer.print` (src/to_go/to_go.go lines 662-695 and
738) for a data argument, with no comments pending: for a `token.Token`,
if `mayCombine p.lastTok s[0]` holds the whitespace buffer is replaced
by a single blank (`p.wsbuf = p.wsbuf[0:1]; p.wsbuf[0] = ' '`);
the buffer is then flushed and the token bytes are written. -/
def printArg (p : MiniPrinter) (arg : PrintArg) : MiniPrinter :=
  match arg with
  | .identArg name => { out := p.out ++ p.wsbuf ++ name, lastTok := .IDENT, wsbuf := [] }
  | .basicLit k v => { out := p.out ++ p.wsbuf ++ v, lastTok := k, wsbuf := [] }
  | .tokArg t =>
    let s := tokString t
    let buf := if mayCombine p.lastTok (s.headD ' ') then [' '] else p.wsbuf
    { out := p.out ++ buf ++ s, lastTok := t, wsbuf := [] }

/-- The initial printer state (`p.lastTok` is `token.ILLEGAL`). -/
def printerInit : MiniPrinter := { out := [], lastTok := .ILLEGAL, wsbuf := [] }

/-! ## Emitter core: comment machinery decisions (src/to_go/to_go.go) -/

/-- The `noExtraLinebreak` printer-mode bit (`pmode`, `1 << 0`). -/
def noExtraLinebreak : Nat := 1

/-- The needs-linebreak decision of `intersperseComments`
(src/to_go/to_go.go lines 520-526): after writing a pending comment
group, a line break is required when the next token is a closing brace
and the `noExtraLinebreak` mode bit is clear, or when the next token is
end-of-file. -/
def needsLinebreakAfterComments (tok : GoTok) (mode : Nat) : Bool :=
  (tok == .RBRACE && mode &&& noExtraLinebreak == 0) || tok == .EOF

/-- The claim's reading of that decision, following the spec's words:
require a newline unless the next token is a closing brace with the
extra break disabled, or unless at end-of-file. -/
def needsLinebreakClaim (tok : GoTok) (mode : Nat) : Bool :=
  !((tok == .RBRACE && mode &&& noExtraLinebreak != 0) || tok == .EOF)

/-- The constant `infinity = 1 << 30` of src/to_go/to_go.go (the
`commentOffset` sentinel when no comments remain). -/
def infinity : Int := 1 <<< 30

/-- `printer.commentBefore` of src/to_go/to_go.go: the pending comment
group is printed before the next position iff its recorded offset
(`p.commentOffset`, the offset of the group's first comment) is before
`next.Offset`, and printing it introduces no implicit semicolon
(`!p.impliedSemi || !p.commentNewline`). -/
def commentBefore (commentOffset nextOffset : Int) (impliedSemi commentNewline : Bool) : Bool :=
  decide (commentOffset < nextOffset) && (!impliedSemi || !commentNewline)

/-- The two branches of `printer.flush` (src/to_go/to_go.go lines
756-765). -/
inductive FlushAction where
  | interleaveComments | writeWs
  deriving DecidableEq, Repr

/-- `printer.flush`: intersperse the pending comments when
`commentBefore` holds, otherwise just write the leftover whitespace. -/
def flushAction (commentOffset nextOffset : Int) (impliedSemi commentNewline : Bool) :
    FlushAction :=
  if commentBefore commentOffset nextOffset impliedSemi commentNewline then
    .interleaveComments
  else
    .writeWs

/-! ## Emitter core: the whitespace-item buffer (src/to_go/to_go.go) -/

/-- The compile-time constant `debug = false` of src/to_go/to_go.go.
`printer.internalError` prints a diagnostic and panics only when this
flag is set. -/
def toGoDebug : Bool := false

/-- The `whiteSpace` items of src/to_go/to_go.go (`ignore`, `blank`,
`vtab`, `newline`, `formfeed`, `indent`, `unindent`). -/
inductive WS where
  | ignore | blank | vtab | newline | formfeed | indent | unindent
  deriving DecidableEq, Repr

/-- Observable events of the whitespace writer: an indentation increment
or decrement (`p.indent++` / `p.indent--`), or a byte handed to
`p.writeByte`. -/
inductive WEv where
  | inc | dec | byte (b : Nat)
  deriving DecidableEq, Repr

/-- State of the whitespace writer: the current indentation
(`p.indent`), whether `internalError` has panicked (`aborted`), and the
trace of events so far. -/
structure WState where
  ind : Int
  aborted : Bool
  evs : List WEv
  deriving DecidableEq, Repr

/-- `p.writeByte(ch, 1)` as seen by the whitespace writer: record the
byte in the trace. -/
def writeB (st : WState) (b : Nat) : WState :=
  { st with evs := st.evs ++ [WEv.byte b] }

/-- The `unindent` case of `printer.writeWhitespace`: `p.indent--`, and
if the result is negative, `p.internalError("negative indentation:")`
(a panic when `debug` is set, a no-op otherwise) followed by
`p.indent = 0`. -/
def applyUnindent (dbg : Bool) (st : WState) : WState :=
  let i := st.ind - 1
  if i < 0 then
    if dbg then { st with ind := i, aborted := true, evs := st.evs ++ [WEv.dec] }
    else { st with ind := 0, evs := st.evs ++ [WEv.dec] }
  else { st with ind := i, evs := st.evs ++ [WEv.dec] }

/-- The entry loop of `printer.writeWhitespace` (src/to_go/to_go.go
lines 536-571) applied to the whole buffer, as `printer.flush` does
(`p.writeWhitespace(len(p.wsbuf))`): `ignore` is skipped, `indent`
increments, `unindent` decrements (with the negative-indent check), a
`newline`/`formfeed` immediately followed by `unindent` is swapped with
it (the break becoming a formfeed, re-examined from the `unindent`), and
every other item is written as its byte. A panic (`aborted`) stops the
loop. -/
def writeWhitespaceLoop (dbg : Bool) (st : WState) (buf : List WS) : WState :=
  if st.aborted then st else
  match buf with
  | [] => st
  | .ignore :: r => writeWhitespaceLoop dbg st r
  | .indent :: r =>
    writeWhitespaceLoop dbg { st with ind := st.ind + 1, evs := st.evs ++ [WEv.inc] } r
  | .unindent :: r => writeWhitespaceLoop dbg (applyUnindent dbg st) r
  | .newline :: .unindent :: r =>
    writeWhitespaceLoop dbg (applyUnindent dbg st) (.formfeed :: r)
  | .formfeed :: .unindent :: r =>
    writeWhitespaceLoop dbg (applyUnindent dbg st) (.formfeed :: r)
  | .newline :: r => writeWhitespaceLoop dbg (writeB st 10) r
  | .formfeed :: r => writeWhitespaceLoop dbg (writeB st 12) r
  | .blank :: r => writeWhitespaceLoop dbg (writeB st 32) r
  | .vtab :: r => writeWhitespaceLoop dbg (writeB st 11) r
  termination_by buf.length
  decreasing_by all_goals simp

/-- Reference processor following the spec's words: apply the
whitespace items strictly in buffer order, with no swapping — `indent`
increments, `unindent` decrements (same negative-indent check), every
break and blank is written as its own byte. -/
def plainWsWrite (dbg : Bool) (st : WState) (buf : List WS) : WState :=
  if st.aborted then st else
  match buf with
  | [] => st
  | .ignore :: r => plainWsWrite dbg st r
  | .indent :: r =>
    plainWsWrite dbg { st with ind := st.ind + 1, evs := st.evs ++ [WEv.inc] } r
  | .unindent :: r => plainWsWrite dbg (applyUnindent dbg st) r
  | .newline :: r => plainWsWrite dbg (writeB st 10) r
  | .formfeed :: r => plainWsWrite dbg (writeB st 12) r
  | .blank :: r => plainWsWrite dbg (writeB st 32) r
  | .vtab :: r => plainWsWrite dbg (writeB st 11) r

/-- Reference buffer rewriting following the spec's words: each
`newline`/`formfeed` immediately followed by `unindent` is swapped with
it, the break becoming a `formfeed`; the resulting break is re-examined
against the rest of the buffer. -/
def swapNormalize : List WS → List WS
  | .newline :: .unindent :: r => .unindent :: swapNormalize (.formfeed :: r)
  | .formfeed :: .unindent :: r => .unindent :: swapNormalize (.formfeed :: r)
  | x :: r => x :: swapNormalize r
  | [] => []
  termination_by l => l.length
  decreasing_by all_goals simp

/-- The effect of a single whitespace item on the writer state, as in
the plain (no-lookahead) reading of the loop body. -/
def oneStep (dbg : Bool) (st : WState) : WS → WState
  | .ignore => st
  | .indent => { st with ind := st.ind + 1, evs := st.evs ++ [WEv.inc] }
  | .unindent => applyUnindent dbg st
  | .newline => writeB st 10
  | .formfeed => writeB st 12
  | .blank => writeB st 32
  | .vtab => writeB st 11

/-! ## Theorems for claims C1, C3, C4, C6, C7 -/

/-- C1, counterexample. The claim says the `parse` subcommand converts
indented-syntax input to curly-syntax output. In src/main.go, `parse`
dispatches to `cmd.To(cmd.IGO, paths)`, whose target (per the repository
README and the spec's file-name convention) is the indented `.igo`
syntax, not the curly one: the claim has the two directions swapped. -/
theorem c1_counterexample :
    (dispatch (toCmd "parse")).map targetSyntaxOf = some SyntaxKind.indented ∧
    (dispatch (toCmd "parse")).map targetSyntaxOf ≠ some SyntaxKind.curly ∧
    (dispatch (toCmd "compile")).map targetSyntaxOf = some SyntaxKind.curly := by
  refine ⟨by decide, by decide, by decide⟩

/-- C1, amended: the `parse` subcommand converts curly-syntax input to
indented-syntax output (`cmd.To(cmd.IGO, …)`), the `compile` subcommand
converts indented-syntax input to curly-syntax output
(`cmd.To(cmd.GO, …)`), and the `build` subcommand is recognized in the
command table but dispatches to no conversion (reserved; not
implemented — `main` falls through to the invalid-command branch). -/
theorem c1_subcommand_directions :
    (dispatch (toCmd "parse") = some Target.IGO ∧
      targetSyntaxOf Target.IGO = SyntaxKind.indented ∧
      sourceSyntaxOf Target.IGO = SyntaxKind.curly) ∧
    (dispatch (toCmd "compile") = some Target.GO ∧
      targetSyntaxOf Target.GO = SyntaxKind.curly ∧
      sourceSyntaxOf Target.GO = SyntaxKind.indented) ∧
    (toCmd "build" = Cmd.BUILD ∧ dispatch (toCmd "build") = none) := by
  refine ⟨⟨by decide, by decide, by decide⟩, ⟨by decide, by decide, by decide⟩,
    ⟨by decide, by decide⟩⟩

/-- C3, counterexample. The claim says the emitter always inserts
`min(src_line_gap, 2)` vertical separators between adjacent elements;
but the insertion block of `printer.print` runs only when no implied
semicolon is pending (`if !p.impliedSemi`): with an implied semicolon
pending and a source gap of 2 lines it inserts 0 separators, not 2. -/
theorem c3_counterexample :
    ¬ (∀ (impliedSemi wroteNewline : Bool) (gap : Int), 0 ≤ gap →
        insertedSeparators impliedSemi wroteNewline gap = min gap 2) := by
  intro h
  have h2 := h true false 2 (by decide)
  simp [insertedSeparators] at h2

/-- C3, amended: the vertical separators inserted by the print step
between two adjacent items number `min(max(src_line_gap, 0), 2)` when no
implied statement terminator is pending and no newline was already
written while flushing comments; one fewer at the cap — that is,
`min(max(src_line_gap, 0), 1)` — when a newline was already written; and
zero when an implied terminator is pending. -/
theorem c3_vertical_separators (gap : Int) (w : Bool) :
    insertedSeparators false false gap = min (max gap 0) 2 ∧
    insertedSeparators false true gap = min (max gap 0) 1 ∧
    insertedSeparators true w gap = 0 := by
  unfold insertedSeparators nlimit maxNewlines
  norm_num
  refine ⟨?_, ?_⟩ <;> split_ifs <;> omega

/-- C4: the token-combination guard. `mayCombine prev b` holds exactly
for the table pairs (after `INT` a `'.'`, after `ADD` a `'+'`, after
`SUB` a `'-'`, after `QUO` a `'*'`, after `LSS` a `'-'` or `'<'`, after
`AND` a `'&'` or `'^'`), and when it holds the print step separates the
two tokens with a blank: printing `INT(1)`, `.`, `IDENT(x)` emits
`1 .x`, which does not re-tokenize as the single token `1.x`. -/
theorem c4_token_combination_guard :
    (∀ (prev : GoTok) (b : Char),
      mayCombine prev b = true ↔
        ((prev = .INT ∧ b = '.') ∨ (prev = .ADD ∧ b = '+') ∨
         (prev = .SUB ∧ b = '-') ∨ (prev = .QUO ∧ b = '*') ∨
         (prev = .LSS ∧ (b = '-' ∨ b = '<')) ∨
         (prev = .AND ∧ (b = '&' ∨ b = '^')))) ∧
    (List.foldl printArg printerInit
        [.basicLit .INT ['1'], .tokArg .PERIOD, .identArg ['x']]).out
      = ['1', ' ', '.', 'x'] := by
  constructor
  · intro prev b
    cases prev <;> simp only [mayCombine] <;> simp
  · decide

/-- C6, counterexample. The claim says a line break is required after a
line comment unless the next token is a closing brace with the extra
break disabled, or unless at end-of-file. The code
(`intersperseComments`) computes the opposite-shaped condition
`tok == RBRACE && mode&noExtraLinebreak == 0 || tok == EOF`: at
end-of-file the code REQUIRES the break (the claim would not), and
before an ordinary token with default mode the code requires none (the
claim would). -/
theorem c6_counterexample :
    (needsLinebreakAfterComments .EOF 0 = true ∧ needsLinebreakClaim .EOF 0 = false) ∧
    (needsLinebreakAfterComments .IDENT 0 = false ∧ needsLinebreakClaim .IDENT 0 = true) := by
  decide

/-- C6, amended: after printing a pending comment group, the emitter
requires a line break before the next token exactly when the next token
is a closing brace and the configured mode does not disable the extra
break (`noExtraLinebreak` clear), or when the next token is
end-of-file. -/
theorem c6_comment_suffix_break (tok : GoTok) (mode : Nat) :
    needsLinebreakAfterComments tok mode = true ↔
      ((tok = .RBRACE ∧ mode &&& noExtraLinebreak = 0) ∨ tok = .EOF) := by
  cases tok <;>
    simp [needsLinebreakAfterComments, Nat.beq_eq_true_eq]

/-- C7: a pending comment group is interleaved before the next token
(`flush` takes the `intersperseComments` branch) if and only if the
offset of the group's first comment is strictly before the next token's
offset, and either no implied statement terminator is pending or the
comment group contains no newline. -/
theorem c7_comment_interleaving
    (commentOffset nextOffset : Int) (impliedSemi commentNewline : Bool) :
    flushAction commentOffset nextOffset impliedSemi commentNewline =
        FlushAction.interleaveComments ↔
      (commentOffset < nextOffset ∧ (impliedSemi = false ∨ commentNewline = false)) := by
  simp only [flushAction, commentBefore]
  constructor
  · intro h
    by_cases hlt : commentOffset < nextOffset <;>
      cases impliedSemi <;> cases commentNewline <;> simp_all
  · rintro ⟨hlt, hor⟩
    rcases hor with h | h <;> subst h <;> simp [hlt]

/-! ## The trimmer io.Writer filter (src/to_go/to_go.go) -/

/-- The states of the `trimmer` state machine (`inSpace`, `inEscape`,
`inText`). -/
inductive TrState where
  | inSpace | inEscape | inText
  deriving DecidableEq, Repr

/-- The `trimmer` of src/to_go/to_go.go: its state, the pending space
bytes (`p.space`), the unwritten text/escape span `data[m:n]` (`seg`),
and the bytes written to the underlying writer so far (`out`). -/
structure Trimmer where
  state : TrState
  space : List Nat
  seg : List Nat
  out : List Nat
  deriving DecidableEq, Repr

/-- A fresh trimmer (Go zero value: `inSpace` with empty buffers). -/
def trimInit : Trimmer := ⟨.inSpace, [], [], []⟩

/-- The vtab-to-htab conversion at the top of the `trimmer.Write` loop
(byte 11 becomes byte 9; written here as a function of the byte). -/
def conv (b : Nat) : Nat := if b = 11 then 9 else b

/-- One byte of `trimmer.Write` (src/to_go/to_go.go lines 909-964).
The `seg` component carries the original (unconverted) bytes of the
pending `data[m:n]` span, exactly as the Go slice does. -/
def trimStep (t : Trimmer) (b : Nat) : Trimmer :=
  match t.state with
  | .inSpace =>
    if conv b = 9 ∨ conv b = 32 then { t with space := t.space ++ [conv b] }
    else if conv b = 10 ∨ conv b = 12 then { t with space := [], out := t.out ++ [10] }
    else if conv b = 255 then { t with state := .inEscape, seg := [], out := t.out ++ t.space }
    else { t with state := .inText, seg := [b], out := t.out ++ t.space }
  | .inEscape =>
    if b = 255 then { t with state := .inSpace, space := [], seg := [], out := t.out ++ t.seg }
    else { t with seg := t.seg ++ [b] }
  | .inText =>
    if conv b = 9 ∨ conv b = 32 then
      { t with state := .inSpace, space := [conv b], seg := [], out := t.out ++ t.seg }
    else if conv b = 10 ∨ conv b = 12 then
      { t with state := .inSpace, space := [], seg := [], out := t.out ++ t.seg ++ [10] }
    else if conv b = 255 then { t with state := .inEscape, seg := [], out := t.out ++ t.seg }
    else { t with seg := t.seg ++ [b] }

/-- The tail of `trimmer.Write`: flush the pending `data[m:n]` span when
the loop ends inside escape or text (pending space is not flushed). -/
def trimFinish (t : Trimmer) : List Nat :=
  match t.state with
  | .inSpace => t.out
  | _ => t.out ++ t.seg

/-- A whole `trimmer.Write` call on a fresh trimmer, as
`Config.fprint` performs it (one `Write` of the full printer output). -/
def trimmerWrite (data : List Nat) : List Nat :=
  trimFinish (data.foldl trimStep trimInit)

/-- Whether a byte is a blank or a tab (the trailing whitespace the
trimmer strips). -/
def isWS (b : Nat) : Bool := b == 9 || b == 32

/-- Adjacent-byte condition: a blank or tab is never immediately
followed by a newline. -/
def sepOK (a b : Nat) : Prop := isWS a = false ∨ b ≠ 10

/-- "No trailing whitespace on any line": no blank/tab immediately
before a newline, and the final byte (the last line) is not a
blank/tab. -/
def CleanOut (l : List Nat) : Prop :=
  l.Chain' sepOK ∧ ∀ x ∈ l.getLast?, isWS x = false

/-- A byte that the trimmer treats as plain text. -/
def textByte (b : Nat) : Prop := isWS b = false ∧ b ≠ 10 ∧ b ≠ 11 ∧ b ≠ 12

/-- No vertical tab and no formfeed remains (they are converted). -/
def noVtFf (l : List Nat) : Prop := ∀ b ∈ l, b ≠ 11 ∧ b ≠ 12

/-- Invariant of the trimmer on sentinel-free input: in `inSpace` the
segment is empty, the space buffer holds only blanks/tabs, and the
output is clean; in `inText` the nonempty segment holds only text bytes
and output-plus-segment is clean. -/
def TrimInv (t : Trimmer) : Prop :=
  (t.state = .inSpace ∧ t.seg = [] ∧ (∀ s ∈ t.space, isWS s = true) ∧
    CleanOut t.out ∧ noVtFf t.out) ∨
  (t.state = .inText ∧ t.seg ≠ [] ∧ (∀ b ∈ t.seg, textByte b) ∧
    CleanOut (t.out ++ t.seg) ∧ noVtFf (t.out ++ t.seg))

/-! ## writeComment and the line directive (src/to_go/to_go.go) -/

/-- `unicode.IsSpace` restricted to the ASCII bytes that occur here
(blank, tab, newline, vtab, formfeed, carriage return) — used by
`strings.TrimSpace` and `trimRight` in `writeComment`. -/
def isSpaceChar (c : Char) : Bool :=
  c == ' ' || c == '\t' || c == '\n' || c == '\x0b' || c == '\x0c' || c == '\r'

/-- Left half of `strings.TrimSpace`. -/
def trimLeftWS (s : List Char) : List Char := s.dropWhile isSpaceChar

/-- `trimRight` of src/to_go/to_go.go
(`strings.TrimRightFunc(s, unicode.IsSpace)`). -/
def trimRightWS (s : List Char) : List Char := (s.reverse.dropWhile isSpaceChar).reverse

/-- `strings.TrimSpace`. -/
def trimSpace (s : List Char) : List Char := trimRightWS (trimLeftWS s)

/-- `strings.LastIndex(s, c)` for a single character, as an `Option`
(`none` for Go's `-1`). -/
def lastIndexOf (c : Char) : List Char → Option Nat
  | [] => none
  | a :: r =>
    match lastIndexOf c r with
    | some j => some (j + 1)
    | none => if a = c then some 0 else none

/-- Digit-string parsing: `some` exactly for a nonempty all-digit
string. -/
def digitsToNat? (s : List Char) : Option Nat :=
  if s ≠ [] ∧ s.all (fun c => c.isDigit) then
    some (s.foldl (fun acc c => acc * 10 + (c.toNat - 48)) 0)
  else none

/-- `strconv.Atoi`: an optional sign followed by digits; `none` on the
empty string or any non-digit. -/
def atoi (s : List Char) : Option Int :=
  match s with
  | [] => none
  | c :: _r =>
    if c = '+' then (digitsToNat? s.tail).map (fun n => (n : Int))
    else if c = '-' then (digitsToNat? s.tail).map (fun n => -(n : Int))
    else (digitsToNat? s).map (fun n => (n : Int))

/-- The `linePrefix` constant of `writeComment` (`"//line "`). -/
def lineDirMark : List Char := "//line ".toList

/-- The observable effect of one `printer.writeComment` call: the string
handed to `writeString`, and the deferred AST-space position update
(filename and line; the source also sets the column to 1), when the
line-directive conditions hold. -/
structure CommentEffect where
  emitted : List Char
  posUpdate : Option (List Char × Int)
  deriving DecidableEq, Repr

/-- `printer.writeComment` (src/to_go/to_go.go lines 424-457): when the
comment text starts with `"//line "` and the position is invalid or at
column 1, parse `ldir := TrimSpace(text[len("//line "):])`; if `ldir`
has a colon and the text after its last colon parses via `Atoi` to a
positive line number, defer an update of `p.pos` to
`(ldir[:i], line, column 1)`. The emitted string is always
`prefix + trimRight(text[1:]) + suffix` with `suffix = " */ "` for any
prefix other than `"//"`. -/
def writeCommentModel (text : List Char) (posValid : Bool) (col : Int)
    (pre : List Char) : CommentEffect :=
  let upd :=
    if lineDirMark.isPrefixOf text && (!posValid || col == 1) then
      let ldir := trimSpace (text.drop lineDirMark.length)
      match lastIndexOf ':' ldir with
      | some i =>
        match atoi (ldir.drop (i + 1)) with
        | some line => if line > 0 then some (ldir.take i, line) else none
        | none => none
      | none => none
    else none
  let suffix := if pre = "//".toList then [] else " */ ".toList
  { emitted := pre ++ trimRightWS (text.drop 1) ++ suffix, posUpdate := upd }

/-! ## Debug pretty-printer (src/ast/print.igo) -/

/-- Model of the reflect values the debug printer walks: nil values,
scalars (carrying their rendered text), pointers (identity = heap
index), structs and slices (each carrying its type's display name). -/
inductive AVal where
  | vnil : AVal
  | prim : String → AVal
  | ptr : Nat → AVal
  | strukt : String → List (String × AVal) → AVal
  | slice : String → List AVal → AVal
  deriving Repr

/-- `NotNilFilter` of src/ast/print.igo as the printer uses it on field
values: false exactly for nil values. -/
def NotNilFilter : AVal → Bool
  | .vnil => false
  | _ => true

/-- Printer state: pointer map, current output line, output text. -/
structure PSt where
  ptrmap : List (Nat × Nat)
  line : Nat
  out : String
  deriving DecidableEq, Repr

def lookupPtr : List (Nat × Nat) → Nat → Option Nat
  | [], _ => none
  | (a, l) :: r, x => if x = a then some l else lookupPtr r x

def countNl (s : String) : Nat := s.toList.countP (fun c => c == '\n')

def emit (st : PSt) (s : String) : PSt :=
  { st with out := st.out ++ s, line := st.line + countNl s }

mutual

def pprint (heap : List AVal) (fuel : Nat) (st : PSt) (v : AVal) : Option PSt :=
  match fuel with
  | 0 => none
  | fuel + 1 =>
    match v with
    | .vnil => some (emit st "nil")
    | .prim s => some (emit st s)
    | .ptr a =>
      let st1 := emit st "*"
      match lookupPtr st1.ptrmap a with
      | some ln => some (emit st1 ("(obj @ " ++ toString ln ++ ")"))
      | none =>
        pprint heap fuel { st1 with ptrmap := (a, st1.line) :: st1.ptrmap }
          (heap.getD a .vnil)
    | .strukt t fields =>
      let st1 := emit st (t ++ " \x7b")
      match pprintFields heap fuel st1 true fields with
      | some st2 => some (emit st2 "\x7d")
      | none => none
    | .slice t elems =>
      let st1 := emit st (t ++ " (len = " ++ toString elems.length ++ ") \x7b")
      match pprintElems heap fuel st1 0 elems with
      | some st2 => some (emit st2 "\x7d")
      | none => none

def pprintFields (heap : List AVal) (fuel : Nat) (st : PSt) (first : Bool)
    (fields : List (String × AVal)) : Option PSt :=
  match fuel with
  | 0 => none
  | fuel + 1 =>
    match fields with
    | [] => some st
    | (name, v) :: rest =>
      if NotNilFilter v then
        let st1 := if first then emit st "\n" else st
        let st2 := emit st1 (name ++ ": ")
        match pprint heap fuel st2 v with
        | some st3 => pprintFields heap fuel (emit st3 "\n") false rest
        | none => none
      else pprintFields heap fuel st first rest

def pprintElems (heap : List AVal) (fuel : Nat) (st : PSt) (i : Nat)
    (elems : List AVal) : Option PSt :=
  match fuel with
  | 0 => none
  | fuel + 1 =>
    match elems with
    | [] => some st
    | v :: rest =>
      let st1 := if i = 0 then emit st "\n" else st
      let st2 := emit st1 (toString i ++ ": ")
      match pprint heap fuel st2 v with
      | some st3 => pprintElems heap fuel (emit st3 "\n") (i + 1) rest
      | none => none

end

mutual

def sizeA : AVal → Nat
  | .vnil => 1
  | .prim _ => 1
  | .ptr _ => 2
  | .strukt _ fs => 1 + sizeFs fs
  | .slice _ es => 1 + sizeEs es

def sizeFs : List (String × AVal) → Nat
  | [] => 0
  | (_, v) :: r => 1 + sizeA v + sizeFs r

def sizeEs : List AVal → Nat
  | [] => 0
  | v :: r => 1 + sizeA v + sizeEs r

end

def pmExt (pm pm' : List (Nat × Nat)) : Prop :=
  ∀ a, (lookupPtr pm a).isSome = true → (lookupPtr pm' a).isSome = true

def unvisited (heap : List AVal) (pm : List (Nat × Nat)) : Nat :=
  ((List.range heap.length).filter (fun a => (lookupPtr pm a).isNone)).length

/-- Sufficient fuel for printing `v` against `heap` from pointer map
`pm`: one unit per node plus one pass per still-unvisited heap cell. -/
def pprintFuel (heap : List AVal) (pm : List (Nat × Nat)) (v : AVal) : Nat :=
  unvisited heap pm * (sizeEs heap + 1) + sizeA v + 1

/-! ## Step lemmas for the whitespace writer -/

theorem wwlAb (dbg : Bool) (st : WState) (buf : List WS) (h : st.aborted = true) :
    writeWhitespaceLoop dbg st buf = st := by
  conv_lhs => unfold writeWhitespaceLoop
  simp [h]

theorem wwlNil (dbg : Bool) (st : WState) :
    writeWhitespaceLoop dbg st [] = st := by
  conv_lhs => unfold writeWhitespaceLoop
  simp

theorem plainAb (dbg : Bool) (st : WState) (buf : List WS) (h : st.aborted = true) :
    plainWsWrite dbg st buf = st := by
  conv_lhs => unfold plainWsWrite
  simp [h]

theorem plainNil (dbg : Bool) (st : WState) :
    plainWsWrite dbg st [] = st := by
  conv_lhs => unfold plainWsWrite
  simp

theorem plainConsume (dbg : Bool) (st : WState) (x : WS) (r : List WS)
    (h : st.aborted = false) :
    plainWsWrite dbg st (x :: r) = plainWsWrite dbg (oneStep dbg st x) r := by
  cases x <;> (conv_lhs => unfold plainWsWrite) <;> simp [h, oneStep]

theorem wwlNlUnind (dbg : Bool) (st : WState) (r : List WS) (h : st.aborted = false) :
    writeWhitespaceLoop dbg st (.newline :: .unindent :: r) =
      writeWhitespaceLoop dbg (applyUnindent dbg st) (.formfeed :: r) := by
  conv_lhs => unfold writeWhitespaceLoop
  simp [h]

theorem wwlFfUnind (dbg : Bool) (st : WState) (r : List WS) (h : st.aborted = false) :
    writeWhitespaceLoop dbg st (.formfeed :: .unindent :: r) =
      writeWhitespaceLoop dbg (applyUnindent dbg st) (.formfeed :: r) := by
  conv_lhs => unfold writeWhitespaceLoop
  simp [h]

theorem wwlConsume (dbg : Bool) (st : WState) (x : WS) (r : List WS)
    (h : st.aborted = false)
    (hx : ¬((x = .newline ∨ x = .formfeed) ∧ r.head? = some .unindent)) :
    writeWhitespaceLoop dbg st (x :: r) = writeWhitespaceLoop dbg (oneStep dbg st x) r := by
  cases x
  case ignore =>
    conv_lhs => unfold writeWhitespaceLoop
    simp [h, oneStep]
  case indent =>
    conv_lhs => unfold writeWhitespaceLoop
    simp [h, oneStep]
  case unindent =>
    conv_lhs => unfold writeWhitespaceLoop
    simp [h, oneStep]
  case blank =>
    conv_lhs => unfold writeWhitespaceLoop
    simp [h, oneStep]
  case vtab =>
    conv_lhs => unfold writeWhitespaceLoop
    simp [h, oneStep]
  case newline =>
    cases r with
    | nil =>
      conv_lhs => unfold writeWhitespaceLoop
      simp [h, oneStep]
    | cons y r2 =>
      cases y <;> (conv_lhs => unfold writeWhitespaceLoop) <;> simp_all [oneStep]
  case formfeed =>
    cases r with
    | nil =>
      conv_lhs => unfold writeWhitespaceLoop
      simp [h, oneStep]
    | cons y r2 =>
      cases y <;> (conv_lhs => unfold writeWhitespaceLoop) <;> simp_all [oneStep]

theorem swapNlUnind (r : List WS) :
    swapNormalize (.newline :: .unindent :: r) =
      .unindent :: swapNormalize (.formfeed :: r) := by
  conv_lhs => unfold swapNormalize

theorem swapFfUnind (r : List WS) :
    swapNormalize (.formfeed :: .unindent :: r) =
      .unindent :: swapNormalize (.formfeed :: r) := by
  conv_lhs => unfold swapNormalize

theorem swapNil : swapNormalize [] = [] := by
  conv_lhs => unfold swapNormalize

theorem swapOther (x : WS) (r : List WS)
    (hx : ¬((x = .newline ∨ x = .formfeed) ∧ r.head? = some .unindent)) :
    swapNormalize (x :: r) = x :: swapNormalize r := by
  conv_lhs => unfold swapNormalize
  cases x <;> cases r with
  | nil => simp
  | cons y r2 => cases y <;> simp_all

/-- The whitespace-buffer flush equals the plain in-order processing of
the swap-normalized buffer. -/
theorem wwlEqAux : ∀ (n : Nat) (dbg : Bool) (st : WState) (buf : List WS),
    buf.length ≤ n →
    writeWhitespaceLoop dbg st buf = plainWsWrite dbg st (swapNormalize buf) := by
  intro n
  induction n with
  | zero =>
    intro dbg st buf h
    have hb : buf = [] := List.eq_nil_of_length_eq_zero (Nat.le_zero.mp h)
    subst hb
    rw [swapNil, wwlNil, plainNil]
  | succ n IH =>
    intro dbg st buf h
    cases hab : st.aborted with
    | true => rw [wwlAb _ _ _ hab, plainAb _ _ _ hab]
    | false =>
      cases buf with
      | nil => rw [swapNil, wwlNil, plainNil]
      | cons x r =>
        by_cases hsw : (x = .newline ∨ x = .formfeed) ∧ r.head? = some .unindent
        · obtain ⟨hx, hr⟩ := hsw
          obtain ⟨r2, hr2⟩ : ∃ r2, r = .unindent :: r2 := by
            cases r with
            | nil => simp at hr
            | cons y r2 =>
              simp at hr
              exact ⟨r2, by rw [hr]⟩
          subst hr2
          have hlen : (WS.formfeed :: r2).length ≤ n := by
            simp at h ⊢
            omega
          rcases hx with hx | hx <;> subst hx
          · rw [swapNlUnind, wwlNlUnind _ _ _ hab,
              plainConsume _ _ _ _ hab, IH dbg _ _ hlen]
            rfl
          · rw [swapFfUnind, wwlFfUnind _ _ _ hab,
              plainConsume _ _ _ _ hab, IH dbg _ _ hlen]
            rfl
        · have hlen : r.length ≤ n := by
            simp at h
            omega
          rw [swapOther _ _ hsw, wwlConsume _ _ _ _ hab hsw,
            plainConsume _ _ _ _ hab, IH dbg _ _ hlen]

/-! ## Theorems for claims C5 and C9 -/

/-- C5, counterexample. The claim says an unindent that would drive the
indentation counter below zero aborts the conversion with a diagnostic.
In the shipped configuration (`debug = false` in src/to_go/to_go.go),
`internalError` neither prints nor panics: flushing an `unindent` at
indentation 0 does not abort — the counter is silently clamped to 0 and
the conversion continues. -/
theorem c5_counterexample :
    (writeWhitespaceLoop toGoDebug ⟨0, false, []⟩ [WS.unindent]).aborted = false ∧
    (writeWhitespaceLoop toGoDebug ⟨0, false, []⟩ [WS.unindent]).ind = 0 := by
  rw [show toGoDebug = false from rfl,
    wwlConsume _ _ _ _ rfl (by simp), wwlNil]
  simp [oneStep, applyUnindent]

/-- C5, amended: when an unindent item would drive the indentation
counter below zero, `internalError` aborts the conversion only if the
compile-time `debug` flag is set; in the shipped configuration
(`debug = false`) nothing is reported, the counter is clamped to zero,
and processing continues — the whitespace writer never aborts and never
leaves a negative indentation. -/
theorem c5_negative_indent :
    (∀ (st : WState) (r : List WS), st.aborted = false → st.ind ≤ 0 →
      (writeWhitespaceLoop true st (WS.unindent :: r)).aborted = true) ∧
    (∀ (n : Nat) (st : WState) (buf : List WS), buf.length ≤ n →
      st.aborted = false → 0 ≤ st.ind →
      (writeWhitespaceLoop false st buf).aborted = false ∧
      0 ≤ (writeWhitespaceLoop false st buf).ind) := by
  constructor
  · intro st r hab hind
    rw [wwlConsume _ _ _ _ hab (by simp)]
    have habort : (oneStep true st WS.unindent).aborted = true := by
      simp only [oneStep, applyUnindent]
      rw [if_pos (by omega)]
      simp
    rw [wwlAb _ _ _ habort]
    exact habort
  · intro n
    induction n with
    | zero =>
      intro st buf h hab hind
      have hb : buf = [] := List.eq_nil_of_length_eq_zero (Nat.le_zero.mp h)
      subst hb
      rw [wwlNil]
      exact ⟨hab, hind⟩
    | succ n IH =>
      intro st buf h hab hind
      cases buf with
      | nil =>
        rw [wwlNil]
        exact ⟨hab, hind⟩
      | cons x r =>
        have hstep : ∀ (y : WS),
            (oneStep false st y).aborted = false ∧ 0 ≤ (oneStep false st y).ind := by
          intro y
          cases y
          case unindent =>
            simp only [oneStep, applyUnindent]
            split_ifs <;> simp_all
          case ignore => exact ⟨hab, hind⟩
          case indent =>
            refine ⟨hab, ?_⟩
            show (0:Int) ≤ st.ind + 1
            omega
          case newline => exact ⟨hab, hind⟩
          case formfeed => exact ⟨hab, hind⟩
          case blank => exact ⟨hab, hind⟩
          case vtab => exact ⟨hab, hind⟩
        by_cases hsw : (x = .newline ∨ x = .formfeed) ∧ r.head? = some .unindent
        · obtain ⟨hx, hr⟩ := hsw
          obtain ⟨r2, hr2⟩ : ∃ r2, r = .unindent :: r2 := by
            cases r with
            | nil => simp at hr
            | cons y r2 =>
              simp at hr
              exact ⟨r2, by rw [hr]⟩
          subst hr2
          have hlen : (WS.formfeed :: r2).length ≤ n := by
            simp at h ⊢
            omega
          have hu := hstep WS.unindent
          rcases hx with hx | hx <;> subst hx
          · rw [wwlNlUnind _ _ _ hab]
            exact IH _ _ hlen hu.1 hu.2
          · rw [wwlFfUnind _ _ _ hab]
            exact IH _ _ hlen hu.1 hu.2
        · have hlen : r.length ≤ n := by
            simp at h
            omega
          rw [wwlConsume _ _ _ _ hab hsw]
          exact IH _ _ hlen (hstep x).1 (hstep x).2

/-- C5, witness for `c5_negative_indent` at concrete inputs: with the
debug flag set, an unindent at indentation 0 aborts; with the shipped
flag clear, processing the same buffer neither aborts nor goes
negative. -/
theorem c5_witness :
    (writeWhitespaceLoop true ⟨0, false, []⟩ [WS.unindent]).aborted = true ∧
    ((writeWhitespaceLoop false ⟨0, false, []⟩ [WS.unindent]).aborted = false ∧
      0 ≤ (writeWhitespaceLoop false ⟨0, false, []⟩ [WS.unindent]).ind) :=
  ⟨c5_negative_indent.1 ⟨0, false, []⟩ [] rfl (by norm_num),
   c5_negative_indent.2 1 ⟨0, false, []⟩ [WS.unindent] (by simp) rfl (by norm_num)⟩

/-- C9: flushing the whitespace buffer behaves exactly as if every
`newline`/`formfeed` item immediately followed by an `unindent` item
were swapped with it — the indentation decrement applied first, the
line break becoming a `formfeed` — and the adjusted buffer were then
processed strictly in order (so no unindent of such a pair is ever
applied after its break). Concretely, the buffer `[newline, unindent]`
is processed as `[unindent, formfeed]`: the trace holds the decrement
before the break, and the break byte is a formfeed (12), not a
newline (10). -/
theorem c9_whitespace_swap :
    (∀ (dbg : Bool) (st : WState) (buf : List WS),
      writeWhitespaceLoop dbg st buf = plainWsWrite dbg st (swapNormalize buf)) ∧
    swapNormalize [WS.newline, WS.unindent] = [WS.unindent, WS.formfeed] ∧
    (plainWsWrite toGoDebug ⟨1, false, []⟩ [WS.unindent, WS.formfeed]).evs
      = [WEv.dec, WEv.byte 12] := by
  refine ⟨fun dbg st buf => wwlEqAux buf.length dbg st buf le_rfl, ?_, ?_⟩
  · rw [swapNlUnind, swapOther _ _ (by simp), swapNil]
  · rw [show toGoDebug = false from rfl, plainConsume _ _ _ _ rfl]
    have h1 : (oneStep false ⟨1, false, []⟩ WS.unindent) = ⟨0, false, [WEv.dec]⟩ := by
      simp [oneStep, applyUnindent]
    rw [h1, plainConsume _ _ _ _ rfl, plainNil]
    simp [oneStep, writeB]

/-! ## Theorems for claim C2 (the trimmer) -/

theorem cleanNil : CleanOut [] := by
  constructor
  · exact List.chain'_nil
  · intro x hx
    simp at hx

theorem cleanAppendOne (l : List Nat) (b : Nat) (hl : CleanOut l) (hb : isWS b = false) :
    CleanOut (l ++ [b]) := by
  obtain ⟨hc, hlast⟩ := hl
  constructor
  · rw [List.chain'_append]
    refine ⟨hc, List.chain'_singleton b, ?_⟩
    intro x hx y hy
    simp at hy
    subst hy
    exact Or.inl (hlast x hx)
  · intro x hx
    rw [List.getLast?_concat] at hx
    simp at hx
    subst hx
    exact hb

theorem cleanAppendRun (l sp : List Nat) (b : Nat) (hl : CleanOut l)
    (hsp : ∀ s ∈ sp, isWS s = true) (hb : isWS b = false) (hb10 : b ≠ 10) :
    CleanOut (l ++ (sp ++ [b])) := by
  obtain ⟨hc, hlast⟩ := hl
  constructor
  · rw [List.chain'_append]
    refine ⟨hc, ?_, ?_⟩
    · rw [List.chain'_append]
      refine ⟨?_, List.chain'_singleton b, ?_⟩
      · induction sp with
        | nil => exact List.chain'_nil
        | cons s rest ih =>
          rcases rest with _ | ⟨s2, rest2⟩
          · exact List.chain'_singleton s
          · refine List.Chain'.cons ?_ (ih (fun x hx => hsp x (List.mem_cons_of_mem _ hx)))
            have := hsp s2 (by simp)
            right
            intro h10
            subst h10
            simp [isWS] at this
      · intro x hx y hy
        simp at hy
        subst hy
        exact Or.inr hb10
    · intro x hx y hy
      rcases sp with _ | ⟨s, rest⟩
      · simp at hy
        subst hy
        exact Or.inr hb10
      · simp at hy
        subst hy
        have := hsp s (by simp)
        right
        intro h10
        subst h10
        simp [isWS] at this
  · intro x hx
    rw [show l ++ (sp ++ [b]) = (l ++ sp) ++ [b] by simp, List.getLast?_concat] at hx
    simp at hx
    subst hx
    exact hb

theorem isWS_iff (b : Nat) : isWS b = true ↔ b = 9 ∨ b = 32 := by
  simp [isWS]

theorem isWS_false_iff (b : Nat) : isWS b = false ↔ b ≠ 9 ∧ b ≠ 32 := by
  simp [isWS]

/-- Step lemmas for the trimmer state machine. -/
theorem stepSpaceWs (sp sg o : List Nat) (b : Nat) (hw : conv b = 9 ∨ conv b = 32) :
    trimStep ⟨.inSpace, sp, sg, o⟩ b = ⟨.inSpace, sp ++ [conv b], sg, o⟩ := by
  simp only [trimStep]
  rw [if_pos hw]

theorem stepSpaceNl (sp sg o : List Nat) (b : Nat)
    (h1 : ¬(conv b = 9 ∨ conv b = 32)) (h2 : conv b = 10 ∨ conv b = 12) :
    trimStep ⟨.inSpace, sp, sg, o⟩ b = ⟨.inSpace, [], sg, o ++ [10]⟩ := by
  simp only [trimStep]
  rw [if_neg h1, if_pos h2]

theorem stepSpaceTxt (sp sg o : List Nat) (b : Nat)
    (h1 : ¬(conv b = 9 ∨ conv b = 32)) (h2 : ¬(conv b = 10 ∨ conv b = 12))
    (h3 : ¬(conv b = 255)) :
    trimStep ⟨.inSpace, sp, sg, o⟩ b = ⟨.inText, sp, [b], o ++ sp⟩ := by
  simp only [trimStep]
  rw [if_neg h1, if_neg h2, if_neg h3]

theorem stepTextWs (sp sg o : List Nat) (b : Nat) (hw : conv b = 9 ∨ conv b = 32) :
    trimStep ⟨.inText, sp, sg, o⟩ b = ⟨.inSpace, [conv b], [], o ++ sg⟩ := by
  simp only [trimStep]
  rw [if_pos hw]

theorem stepTextNl (sp sg o : List Nat) (b : Nat)
    (h1 : ¬(conv b = 9 ∨ conv b = 32)) (h2 : conv b = 10 ∨ conv b = 12) :
    trimStep ⟨.inText, sp, sg, o⟩ b = ⟨.inSpace, [], [], o ++ sg ++ [10]⟩ := by
  simp only [trimStep]
  rw [if_neg h1, if_pos h2]

theorem stepTextTxt (sp sg o : List Nat) (b : Nat)
    (h1 : ¬(conv b = 9 ∨ conv b = 32)) (h2 : ¬(conv b = 10 ∨ conv b = 12))
    (h3 : ¬(conv b = 255)) :
    trimStep ⟨.inText, sp, sg, o⟩ b = ⟨.inText, sp, sg ++ [b], o⟩ := by
  simp only [trimStep]
  rw [if_neg h1, if_neg h2, if_neg h3]

theorem stepEscIn (sp sg o : List Nat) (b : Nat) (hb : b ≠ 255) :
    trimStep ⟨.inEscape, sp, sg, o⟩ b = ⟨.inEscape, sp, sg ++ [b], o⟩ := by
  simp only [trimStep]
  rw [if_neg hb]

theorem stepEscOut (sp sg o : List Nat) :
    trimStep ⟨.inEscape, sp, sg, o⟩ 255 = ⟨.inSpace, [], [], o ++ sg⟩ := by
  simp [trimStep]

/-- Byte classification facts for a sentinel-free text byte. -/
theorem convTextFacts (b : Nat) (hb : b ≠ 255)
    (h1 : ¬(conv b = 9 ∨ conv b = 32)) (h2 : ¬(conv b = 10 ∨ conv b = 12)) :
    textByte b ∧ conv b ≠ 255 := by
  have h11 : b ≠ 11 := by
    intro h
    subst h
    simp [conv] at h1
  have hcb : conv b = b := by
    simp [conv, h11]
  rw [hcb] at h1 h2
  refine ⟨⟨(isWS_false_iff b).mpr ⟨fun h => h1 (Or.inl h), fun h => h1 (Or.inr h)⟩,
    fun h => h2 (Or.inl h), h11, fun h => h2 (Or.inr h)⟩, ?_⟩
  rw [hcb]
  exact hb

theorem trimStep_inv (t : Trimmer) (b : Nat) (hb : b ≠ 255) (h : TrimInv t) :
    TrimInv (trimStep t b) := by
  obtain ⟨st, sp, sg, o⟩ := t
  by_cases h1 : conv b = 9 ∨ conv b = 32
  case pos =>
    have hwb : isWS (conv b) = true := by
      rcases h1 with h | h <;> rw [h] <;> decide
    rcases h with ⟨hs, hseg, hsp, hco, hnv⟩ | ⟨hs, hseg, htb, hco, hnv⟩ <;>
      simp only at hs hseg <;> subst hs
    · rw [stepSpaceWs _ _ _ _ h1]
      left
      refine ⟨rfl, hseg, ?_, hco, hnv⟩
      intro s hs
      rcases List.mem_append.mp hs with hs | hs
      · exact hsp s hs
      · simp at hs
        subst hs
        exact hwb
    · rw [stepTextWs _ _ _ _ h1]
      left
      refine ⟨rfl, rfl, ?_, hco, hnv⟩
      intro s hs
      simp at hs
      subst hs
      exact hwb
  case neg =>
  by_cases h2 : conv b = 10 ∨ conv b = 12
  case pos =>
    rcases h with ⟨hs, hseg, hsp, hco, hnv⟩ | ⟨hs, hseg, htb, hco, hnv⟩ <;>
      simp only at hs hseg <;> subst hs
    · rw [stepSpaceNl _ _ _ _ h1 h2]
      left
      refine ⟨rfl, hseg, by simp, cleanAppendOne _ _ hco (by decide), ?_⟩
      intro x hx
      rcases List.mem_append.mp hx with hx | hx
      · exact hnv x hx
      · simp at hx
        subst hx
        decide
    · rw [stepTextNl _ _ _ _ h1 h2]
      left
      refine ⟨rfl, rfl, by simp, ?_, ?_⟩
      · exact cleanAppendOne _ _ hco (by decide)
      · intro x hx
        rcases List.mem_append.mp hx with hx | hx
        · exact hnv x hx
        · simp at hx
          subst hx
          decide
  case neg =>
    obtain ⟨htxt, h255⟩ := convTextFacts b hb h1 h2
    rcases h with ⟨hs, hseg, hsp, hco, hnv⟩ | ⟨hs, hseg, htb, hco, hnv⟩ <;>
      simp only at hs hseg <;> subst hs
    · rw [stepSpaceTxt _ _ _ _ h1 h2 h255]
      right
      subst hseg
      refine ⟨rfl, by simp, ?_, ?_, ?_⟩
      · intro x hx
        simp at hx
        subst hx
        exact htxt
      · rw [List.append_assoc]
        exact cleanAppendRun _ _ _ hco hsp htxt.1 htxt.2.1
      · intro x hx
        rw [List.append_assoc, List.mem_append] at hx
        rcases hx with hx | hx
        · exact hnv x hx
        · rcases List.mem_append.mp hx with hx | hx
          · have := (isWS_iff x).mp (hsp x hx)
            rcases this with h | h <;> subst h <;> exact ⟨by omega, by omega⟩
          · simp at hx
            subst hx
            exact ⟨htxt.2.2.1, htxt.2.2.2⟩
    · rw [stepTextTxt _ _ _ _ h1 h2 h255]
      right
      refine ⟨rfl, by simp, ?_, ?_, ?_⟩
      · intro x hx
        rcases List.mem_append.mp hx with hx | hx
        · exact htb x hx
        · simp at hx
          subst hx
          exact htxt
      · rw [← List.append_assoc]
        exact cleanAppendOne _ _ hco htxt.1
      · intro x hx
        rw [← List.append_assoc, List.mem_append] at hx
        rcases hx with hx | hx
        · exact hnv x hx
        · simp at hx
          subst hx
          exact ⟨htxt.2.2.1, htxt.2.2.2⟩

theorem foldl_trim_inv (data : List Nat) :
    ∀ (t : Trimmer), TrimInv t → (∀ b ∈ data, b ≠ 255) →
      TrimInv (data.foldl trimStep t) := by
  induction data with
  | nil =>
    intro t h _
    exact h
  | cons b rest ih =>
    intro t h hd
    rw [List.foldl_cons]
    exact ih _ (trimStep_inv t b (hd b (by simp)) h) (fun x hx => hd x (by simp [hx]))

theorem trimFinish_clean (t : Trimmer) (h : TrimInv t) :
    CleanOut (trimFinish t) ∧ noVtFf (trimFinish t) := by
  obtain ⟨st, sp, sg, o⟩ := t
  rcases h with ⟨hs, hseg, hsp, hco, hnv⟩ | ⟨hs, hseg, htb, hco, hnv⟩ <;>
    simp only at hs hseg <;> subst hs
  · simpa [trimFinish] using ⟨hco, hnv⟩
  · simpa [trimFinish] using ⟨hco, hnv⟩

theorem foldl_trim_escape (mid : List Nat) :
    ∀ (sp sg o : List Nat), (∀ b ∈ mid, b ≠ 255) →
      mid.foldl trimStep ⟨.inEscape, sp, sg, o⟩ = ⟨.inEscape, sp, sg ++ mid, o⟩ := by
  induction mid with
  | nil =>
    intro sp sg o _
    simp
  | cons b rest ih =>
    intro sp sg o hd
    rw [List.foldl_cons, stepEscIn _ _ _ _ (hd b (by simp)),
      ih _ _ _ (fun x hx => hd x (by simp [hx]))]
    simp

/-- C2: every printer emission is routed through the trimmer
(`Config.fprint` wraps the output writer in a `trimmer`), and for any
sentinel-free input the trimmer's output has no trailing whitespace on
any line (no blank/tab immediately before a newline and none at the end
of the data), contains no vertical tab and no formfeed (they are
converted to horizontal tab and newline respectively), while bytes
bracketed by the tabwriter escape sentinel (255) pass through
unchanged. -/
theorem c2_trimmer_no_trailing_ws :
    (∀ data : List Nat, (∀ b ∈ data, b ≠ 255) →
      CleanOut (trimmerWrite data) ∧ noVtFf (trimmerWrite data)) ∧
    (∀ mid : List Nat, (∀ b ∈ mid, b ≠ 255) →
      trimmerWrite (255 :: (mid ++ [255])) = mid) := by
  constructor
  · intro data hd
    refine trimFinish_clean _ (foldl_trim_inv data trimInit ?_ hd)
    left
    exact ⟨rfl, rfl, by simp [trimInit], cleanNil, by simp [trimInit, noVtFf]⟩
  · intro mid hmid
    have h0 : trimStep trimInit 255 = ⟨.inEscape, [], [], []⟩ := by decide
    rw [trimmerWrite, List.foldl_cons, h0, List.foldl_append,
      foldl_trim_escape mid _ _ _ hmid, List.foldl_cons, stepEscOut, List.foldl_nil]
    simp [trimFinish]

/-- C2, witness for `c2_trimmer_no_trailing_ws` at concrete inputs:
a chunk with trailing blanks/tabs before a newline and at the end, and
an escaped region containing a blank and a newline. -/
theorem c2_witness :
    (CleanOut (trimmerWrite [101, 32, 9, 10, 102, 32]) ∧
      noVtFf (trimmerWrite [101, 32, 9, 10, 102, 32])) ∧
    trimmerWrite (255 :: ([65, 32, 10] ++ [255])) = [65, 32, 10] :=
  ⟨c2_trimmer_no_trailing_ws.1 _ (by decide),
   c2_trimmer_no_trailing_ws.2 _ (by decide)⟩

/-! ## Theorems for claim C8 (line directives) -/

/-- C8, counterexample. The claim says the directive text is reproduced
verbatim. A comment whose text is `//line foo.src:42` at column 1 does
trigger the deferred position update to `(foo.src, 42)`, but
`writeComment` emits `prefix + trimRight(text[1:])`: the leading byte of
the stored text is dropped and the configured prefix `//` is prepended,
so the emitted bytes are `///line foo.src:42` — not the verbatim
directive. -/
theorem c8_counterexample :
    (writeCommentModel ("//line foo.src:42".toList) true 1 ("//".toList)).posUpdate
        = some ("foo.src".toList, 42) ∧
    (writeCommentModel ("//line foo.src:42".toList) true 1 ("//".toList)).emitted
        = "///line foo.src:42".toList ∧
    "///line foo.src:42".toList ≠ "//line foo.src:42".toList := by
  refine ⟨by decide, by decide, by decide⟩

theorem lastIndexOf_eq_none (c : Char) (l : List Char) (h : c ∉ l) :
    lastIndexOf c l = none := by
  induction l with
  | nil => rfl
  | cons a r ih =>
    simp only [lastIndexOf]
    rw [ih (fun hc => h (List.mem_cons_of_mem _ hc))]
    rw [if_neg]
    intro he
    exact h (he ▸ List.mem_cons_self a r)

theorem lastIndexOf_sep (f ds : List Char) (h : ':' ∉ ds) :
    lastIndexOf ':' (f ++ ':' :: ds) = some f.length := by
  induction f with
  | nil =>
    simp only [List.nil_append, lastIndexOf]
    rw [lastIndexOf_eq_none _ _ h]
    simp
  | cons a f' ih =>
    simp only [List.cons_append, lastIndexOf, List.append_eq]
    rw [ih]
    simp

theorem dropWhile_eq_self_head (p : Char → Bool) (l : List Char)
    (h : ∀ c ∈ l.take 1, p c = false) : l.dropWhile p = l := by
  cases l with
  | nil => rfl
  | cons a r =>
    rw [List.dropWhile_cons, if_neg]
    rw [h a (by simp)]
    simp

theorem digit_not_space (c : Char) (h : c.isDigit = true) : isSpaceChar c = false := by
  by_contra hs
  rw [Bool.not_eq_false] at hs
  simp only [isSpaceChar, Bool.or_eq_true, beq_iff_eq] at hs
  rcases hs with ((((h1 | h1) | h1) | h1) | h1) | h1 <;> subst h1 <;>
    simp [Char.isDigit] at h

theorem digits_facts (ds : List Char) (n : Nat) (h : digitsToNat? ds = some n) :
    ds ≠ [] ∧ (∀ c ∈ ds, c.isDigit = true) := by
  by_cases hc : ds ≠ [] ∧ ds.all (fun c => c.isDigit)
  · exact ⟨hc.1, fun c hm => List.all_eq_true.mp hc.2 c hm⟩
  · rw [digitsToNat?, if_neg hc] at h
    exact absurd h (by simp)

theorem atoi_digits (ds : List Char) (n : Nat) (h : digitsToNat? ds = some n) :
    atoi ds = some (n : Int) := by
  obtain ⟨hne, hdig⟩ := digits_facts ds n h
  cases ds with
  | nil => exact absurd rfl hne
  | cons c r =>
    have hcd := hdig c (by simp)
    have hplus : c ≠ '+' := by
      intro he
      subst he
      simp [Char.isDigit] at hcd
    have hminus : c ≠ '-' := by
      intro he
      subst he
      simp [Char.isDigit] at hcd
    simp only [atoi]
    rw [if_neg hplus, if_neg hminus, h]
    rfl

theorem trimSpace_sep (f ds : List Char)
    (hf : ∀ c ∈ f.take 1, isSpaceChar c = false)
    (hds : ds ≠ []) (hdig : ∀ c ∈ ds, c.isDigit = true) :
    trimSpace (f ++ ':' :: ds) = f ++ ':' :: ds := by
  have hleft : trimLeftWS (f ++ ':' :: ds) = f ++ ':' :: ds := by
    refine dropWhile_eq_self_head _ _ ?_
    intro c hc
    cases f with
    | nil =>
      simp at hc
      subst hc
      decide
    | cons a f' =>
      simp at hc
      subst hc
      exact hf _ (by simp)
  have hright : trimRightWS (f ++ ':' :: ds) = f ++ ':' :: ds := by
    obtain ⟨l2, d, hd⟩ := List.eq_nil_or_concat ds |>.resolve_left hds
    rw [List.concat_eq_append] at hd
    subst hd
    rw [trimRightWS]
    rw [show f ++ ':' :: (l2 ++ [d]) = (f ++ ':' :: l2) ++ [d] by simp]
    rw [List.reverse_append]
    simp only [List.reverse_singleton, List.singleton_append]
    rw [List.dropWhile_cons, if_neg]
    · simp
    · rw [digit_not_space d (hdig d (by simp))]
      simp
  rw [trimSpace, hleft, hright]

/-- C8, amended: when the emitter writes a comment whose text begins
with `"//line "`, whose position is at column 1 (or invalid), and whose
remainder after the last colon parses as a positive integer N, it
defers an update of its AST-space position to the directive's filename,
line N, column 1; with a valid position at any other column no update
happens. The comment is emitted as the configured prefix plus the text
minus its first byte (right-trimmed, plus a block-comment suffix for
non-`//` prefixes) — the directive is therefore not reproduced
verbatim. -/
theorem c8_line_directive :
    (∀ (f ds : List Char) (n : Nat),
      digitsToNat? ds = some n → 0 < n →
      ':' ∉ ds →
      (∀ c ∈ f.take 1, isSpaceChar c = false) →
      (writeCommentModel (lineDirMark ++ (f ++ ':' :: ds)) true 1 ("//".toList)).posUpdate
        = some (f, (n : Int))) ∧
    (∀ (text pre : List Char) (col : Int), col ≠ 1 →
      (writeCommentModel text true col pre).posUpdate = none) ∧
    (∀ (text pre : List Char) (posValid : Bool) (col : Int),
      (writeCommentModel text posValid col pre).emitted
        = pre ++ trimRightWS (text.drop 1) ++
          (if pre = "//".toList then [] else " */ ".toList)) := by
  refine ⟨?_, ?_, ?_⟩
  · intro f ds n hds hn hcolon hf
    obtain ⟨hne, hdig⟩ := digits_facts ds n hds
    have hpre : lineDirMark.isPrefixOf (lineDirMark ++ (f ++ ':' :: ds)) = true := by
      rw [List.isPrefixOf_iff_prefix]
      exact List.prefix_append _ _
    have hdrop : (lineDirMark ++ (f ++ ':' :: ds)).drop lineDirMark.length
        = f ++ ':' :: ds := List.drop_left _ _
    have htrim := trimSpace_sep f ds hf hne hdig
    have hlast := lastIndexOf_sep f ds hcolon
    have hdrop2 : (f ++ ':' :: ds).drop (f.length + 1) = ds := by
      rw [show f ++ ':' :: ds = (f ++ [':']) ++ ds by simp,
        show f.length + 1 = (f ++ [':']).length by simp]
      exact List.drop_left _ _
    have htake : (f ++ ':' :: ds).take f.length = f := List.take_left _ _
    have hatoi := atoi_digits ds n hds
    simp only [writeCommentModel, hpre, Bool.true_and, Bool.not_true, Bool.false_or,
      beq_self_eq_true, if_true, hdrop, htrim, hlast, hdrop2, hatoi, htake]
    rw [if_pos (by exact_mod_cast hn)]
  · intro text pre col hcol
    simp only [writeCommentModel]
    rw [if_neg]
    simp only [Bool.not_true, Bool.false_or, Bool.and_eq_true, beq_iff_eq]
    rintro ⟨-, hc⟩
    exact hcol hc
  · intro text pre posValid col
    rfl

/-- C8, witness for `c8_line_directive` at concrete inputs. -/
theorem c8_witness :
    (writeCommentModel (lineDirMark ++ ("foo.src".toList ++ ':' :: "42".toList)) true 1
        ("//".toList)).posUpdate = some ("foo.src".toList, (42 : Int)) ∧
    (writeCommentModel ("//line x:1".toList) true 2 ("//".toList)).posUpdate = none :=
  ⟨c8_line_directive.1 ("foo.src".toList) ("42".toList) 42 (by decide) (by decide)
      (by decide) (by decide),
   c8_line_directive.2.1 ("//line x:1".toList) ("//".toList) 2 (by decide)⟩

/-! ## Theorems for claim C10 (the debug pretty-printer) -/

theorem pmExt_refl (pm : List (Nat × Nat)) : pmExt pm pm := fun _ h => h

theorem pmExt_trans (pm1 pm2 pm3 : List (Nat × Nat))
    (h1 : pmExt pm1 pm2) (h2 : pmExt pm2 pm3) : pmExt pm1 pm3 :=
  fun a h => h2 a (h1 a h)

theorem pmExt_cons (pm : List (Nat × Nat)) (a ln : Nat) : pmExt pm ((a, ln) :: pm) := by
  intro x hx
  simp only [lookupPtr]
  split_ifs with h
  · simp
  · exact hx

theorem length_filter_mono (l : List Nat) (p q : Nat → Bool)
    (h : ∀ x, q x = true → p x = true) :
    (l.filter q).length ≤ (l.filter p).length := by
  induction l with
  | nil => simp
  | cons a t ih =>
    by_cases hq : q a = true
    · rw [List.filter_cons_of_pos hq, List.filter_cons_of_pos (h a hq)]
      simpa using ih
    · rw [List.filter_cons_of_neg (by simpa using hq)]
      refine le_trans ih ?_
      by_cases hp : p a = true
      · rw [List.filter_cons_of_pos hp]
        simp
      · rw [List.filter_cons_of_neg (by simpa using hp)]

theorem unvisited_mono (heap : List AVal) (pm pm' : List (Nat × Nat))
    (h : pmExt pm pm') : unvisited heap pm' ≤ unvisited heap pm := by
  refine length_filter_mono _ _ _ ?_
  intro x hx
  rw [Option.isNone_iff_eq_none] at hx ⊢
  by_cases hs : (lookupPtr pm x).isSome = true
  · have := h x hs
    rw [hx] at this
    simp at this
  · simpa using hs

theorem filter_insert_lt (a : Nat) (p q : Nat → Bool)
    (hq : ∀ x, q x = true → p x = true) (hqa : q a = false) (hpa : p a = true) :
    ∀ (l : List Nat), l.Nodup → a ∈ l →
      (l.filter q).length < (l.filter p).length := by
  intro l
  induction l with
  | nil => intro _ h; simp at h
  | cons b t ih =>
    intro hnd hmem
    by_cases hba : b = a
    · subst hba
      rw [List.filter_cons_of_neg (by simpa using hqa), List.filter_cons_of_pos hpa]
      have := length_filter_mono t p q hq
      simp only [List.length_cons]
      omega
    · have hat : a ∈ t := by
        rcases List.mem_cons.mp hmem with h | h
        · exact absurd h.symm hba
        · exact h
      have hnt : t.Nodup := (List.nodup_cons.mp hnd).2
      have hlt := ih hnt hat
      by_cases hqb : q b = true
      · rw [List.filter_cons_of_pos hqb, List.filter_cons_of_pos (hq b hqb)]
        simpa using hlt
      · rw [List.filter_cons_of_neg (by simpa using hqb)]
        refine lt_of_lt_of_le hlt ?_
        by_cases hpb : p b = true
        · rw [List.filter_cons_of_pos hpb]
          simp
        · rw [List.filter_cons_of_neg (by simpa using hpb)]

theorem unvisited_insert_lt (heap : List AVal) (pm : List (Nat × Nat)) (a ln : Nat)
    (ha : a < heap.length) (hnone : lookupPtr pm a = none) :
    unvisited heap ((a, ln) :: pm) < unvisited heap pm := by
  refine filter_insert_lt a _ _ ?_ ?_ ?_ (List.range heap.length)
    (List.nodup_range _) (List.mem_range.mpr ha)
  · intro x hx
    rw [Option.isNone_iff_eq_none] at hx ⊢
    simp only [lookupPtr] at hx
    by_cases hxa : x = a
    · rw [if_pos hxa] at hx
      simp at hx
    · rwa [if_neg hxa] at hx
  · simp [lookupPtr]
  · simp [hnone]

theorem sizeEs_mem (l : List AVal) (v : AVal) (h : v ∈ l) : sizeA v + 1 ≤ sizeEs l := by
  induction l with
  | nil => simp at h
  | cons w t ih =>
    rcases List.mem_cons.mp h with h | h
    · subst h
      simp [sizeEs]
      omega
    · have := ih h
      simp [sizeEs]
      omega

theorem getD_mem_of_lt (l : List AVal) (a : Nat) (h : a < l.length) :
    l.getD a .vnil ∈ l := by
  induction l generalizing a with
  | nil => simp at h
  | cons w t ih =>
    cases a with
    | zero => simp [List.getD]
    | succ a' =>
      have h2 := ih a' (by simpa using h)
      simp only [List.getD] at h2 ⊢
      right
      simpa using h2

theorem getD_eq_of_ge (l : List AVal) (a : Nat) (h : l.length ≤ a) :
    l.getD a .vnil = .vnil := by
  induction l generalizing a with
  | nil => simp [List.getD]
  | cons w t ih =>
    cases a with
    | zero => simp at h
    | succ a' => simpa [List.getD] using ih a' (by simpa using h)

theorem mul_succ_le (u2 u s : Nat) (h : u2 ≤ u) : u2 * s ≤ u * s :=
  Nat.mul_le_mul_right s h

/-- Fuel sufficiency for the debug printer: with fuel exceeding
`unvisited * (heap size + 1) + node size`, the walk completes, and the
pointer map only ever grows. -/
theorem pprint_sufficient :
    ∀ (fuel : Nat) (heap : List AVal),
      (∀ (st : PSt) (v : AVal),
        unvisited heap st.ptrmap * (sizeEs heap + 1) + sizeA v < fuel →
        ∃ st', pprint heap fuel st v = some st' ∧ pmExt st.ptrmap st'.ptrmap) ∧
      (∀ (st : PSt) (first : Bool) (fs : List (String × AVal)),
        unvisited heap st.ptrmap * (sizeEs heap + 1) + sizeFs fs < fuel →
        ∃ st', pprintFields heap fuel st first fs = some st' ∧
          pmExt st.ptrmap st'.ptrmap) ∧
      (∀ (st : PSt) (i : Nat) (es : List AVal),
        unvisited heap st.ptrmap * (sizeEs heap + 1) + sizeEs es < fuel →
        ∃ st', pprintElems heap fuel st i es = some st' ∧
          pmExt st.ptrmap st'.ptrmap) := by
  intro fuel
  induction fuel with
  | zero =>
    intro heap
    exact ⟨fun st v h => absurd h (by omega),
      fun st first fs h => absurd h (by omega),
      fun st i es h => absurd h (by omega)⟩
  | succ f IH =>
    intro heap
    obtain ⟨IHP, IHQ, IHR⟩ := IH heap
    have hP : ∀ (st : PSt) (v : AVal),
        unvisited heap st.ptrmap * (sizeEs heap + 1) + sizeA v < f + 1 →
        ∃ st', pprint heap (f + 1) st v = some st' ∧ pmExt st.ptrmap st'.ptrmap := by
      intro st v H
      cases v with
      | vnil => exact ⟨emit st "nil", rfl, pmExt_refl _⟩
      | prim s => exact ⟨emit st s, rfl, pmExt_refl _⟩
      | ptr a =>
        have hpm : (emit st "*").ptrmap = st.ptrmap := rfl
        rcases hlk : lookupPtr st.ptrmap a with _ | ln
        · -- unvisited pointer: record it under its identity and recurse
          have hrec : pprint heap (f + 1) st (.ptr a)
              = pprint heap f
                  { emit st "*" with ptrmap := (a, (emit st "*").line) :: st.ptrmap }
                  (heap.getD a .vnil) := by
            simp only [pprint, hpm, hlk]
          have hpm2 :
              ({ emit st "*" with
                  ptrmap := (a, (emit st "*").line) :: st.ptrmap } : PSt).ptrmap
              = (a, (emit st "*").line) :: st.ptrmap := rfl
          have hsA : sizeA (.ptr a) = 2 := rfl
          by_cases ha : a < heap.length
          · have hsz := sizeEs_mem heap _ (getD_mem_of_lt heap a ha)
            have hUlt : unvisited heap ((a, (emit st "*").line) :: st.ptrmap)
                < unvisited heap st.ptrmap :=
              unvisited_insert_lt heap st.ptrmap a _ ha hlk
            have hmul : (unvisited heap ((a, (emit st "*").line) :: st.ptrmap) + 1)
                  * (sizeEs heap + 1)
                ≤ unvisited heap st.ptrmap * (sizeEs heap + 1) :=
              mul_succ_le _ _ _ (by omega)
            rw [Nat.add_mul, Nat.one_mul] at hmul
            have Hrec : unvisited heap
                  ({ emit st "*" with
                      ptrmap := (a, (emit st "*").line) :: st.ptrmap } : PSt).ptrmap
                  * (sizeEs heap + 1) + sizeA (heap.getD a .vnil) < f := by
              rw [hpm2]
              rw [hsA] at H
              omega
            obtain ⟨st', hok, hext⟩ := IHP _ (heap.getD a .vnil) Hrec
            rw [hpm2] at hext
            refine ⟨st', by rw [hrec]; exact hok, ?_⟩
            exact pmExt_trans _ _ _ (pmExt_cons _ _ _) hext
          · have hcell : heap.getD a .vnil = .vnil := getD_eq_of_ge heap a (by omega)
            have hUle : unvisited heap ((a, (emit st "*").line) :: st.ptrmap)
                ≤ unvisited heap st.ptrmap :=
              unvisited_mono heap _ _ (pmExt_cons _ _ _)
            have hmul : unvisited heap ((a, (emit st "*").line) :: st.ptrmap)
                  * (sizeEs heap + 1)
                ≤ unvisited heap st.ptrmap * (sizeEs heap + 1) :=
              mul_succ_le _ _ _ hUle
            have Hrec : unvisited heap
                  ({ emit st "*" with
                      ptrmap := (a, (emit st "*").line) :: st.ptrmap } : PSt).ptrmap
                  * (sizeEs heap + 1) + sizeA (heap.getD a .vnil) < f := by
              rw [hpm2, hcell]
              rw [hsA] at H
              have : sizeA AVal.vnil = 1 := rfl
              omega
            obtain ⟨st', hok, hext⟩ := IHP _ (heap.getD a .vnil) Hrec
            rw [hpm2] at hext
            refine ⟨st', by rw [hrec]; exact hok, ?_⟩
            exact pmExt_trans _ _ _ (pmExt_cons _ _ _) hext
        · refine ⟨emit (emit st "*") ("(obj @ " ++ toString ln ++ ")"), ?_, pmExt_refl _⟩
          simp only [pprint, hpm, hlk]
      | strukt t fs =>
        have hpm1 : (emit st (t ++ " \x7b")).ptrmap = st.ptrmap := rfl
        have hsA : sizeA (.strukt t fs) = 1 + sizeFs fs := rfl
        have HQ : unvisited heap (emit st (t ++ " \x7b")).ptrmap * (sizeEs heap + 1)
            + sizeFs fs < f := by
          rw [hpm1]
          rw [hsA] at H
          omega
        obtain ⟨st2, hok, hext⟩ := IHQ (emit st (t ++ " \x7b")) true fs HQ
        rw [hpm1] at hext
        exact ⟨emit st2 "\x7d", by simp only [pprint, hok], hext⟩
      | slice t es =>
        have hpm1 : (emit st (t ++ " (len = " ++ toString es.length ++ ") \x7b")).ptrmap
            = st.ptrmap := rfl
        have hsA : sizeA (.slice t es) = 1 + sizeEs es := rfl
        have HR : unvisited heap
            (emit st (t ++ " (len = " ++ toString es.length ++ ") \x7b")).ptrmap
            * (sizeEs heap + 1) + sizeEs es < f := by
          rw [hpm1]
          rw [hsA] at H
          omega
        obtain ⟨st2, hok, hext⟩ :=
          IHR (emit st (t ++ " (len = " ++ toString es.length ++ ") \x7b")) 0 es HR
        rw [hpm1] at hext
        exact ⟨emit st2 "\x7d", by simp only [pprint, hok], hext⟩
    refine ⟨hP, ?_, ?_⟩
    · -- fields
      intro st first fs HQ
      induction fs generalizing st first with
      | nil => exact ⟨st, rfl, pmExt_refl _⟩
      | cons fv rest ihrest =>
        obtain ⟨name, v⟩ := fv
        have hsF : sizeFs ((name, v) :: rest) = 1 + sizeA v + sizeFs rest := rfl
        rw [hsF] at HQ
        by_cases hnil : NotNilFilter v = true
        · have hpmif : (emit (if first then emit st "\n" else st) (name ++ ": ")).ptrmap
              = st.ptrmap := by
            cases first <;> rfl
          have hsz1 : 1 ≤ sizeA v := by
            cases v <;> simp [sizeA]
          have HP2 : unvisited heap
              (emit (if first then emit st "\n" else st) (name ++ ": ")).ptrmap
              * (sizeEs heap + 1) + sizeA v < f := by
            rw [hpmif]
            omega
          obtain ⟨st3, hok3, hext3⟩ :=
            IHP (emit (if first then emit st "\n" else st) (name ++ ": ")) v HP2
          rw [hpmif] at hext3
          have hU3 : unvisited heap st3.ptrmap ≤ unvisited heap st.ptrmap :=
            unvisited_mono heap _ _ hext3
          have hmul := mul_succ_le _ _ (sizeEs heap + 1) hU3
          have hpm3 : (emit st3 "\n").ptrmap = st3.ptrmap := rfl
          have HQ3 : unvisited heap (emit st3 "\n").ptrmap * (sizeEs heap + 1)
              + sizeFs rest < f := by
            rw [hpm3]
            omega
          obtain ⟨st4, hok4, hext4⟩ := IHQ (emit st3 "\n") false rest HQ3
          rw [hpm3] at hext4
          refine ⟨st4, ?_, ?_⟩
          · simp only [pprintFields, if_pos hnil, hok3, hok4]
          · exact pmExt_trans _ _ _ hext3 (pmExt_trans _ _ _ (pmExt_refl _) hext4)
        · have HQ2 : unvisited heap st.ptrmap * (sizeEs heap + 1) + sizeFs rest < f := by
            omega
          obtain ⟨st', hok, hext⟩ := IHQ st first rest HQ2
          refine ⟨st', ?_, hext⟩
          simp only [pprintFields, if_neg hnil, hok]
    · -- slice elements
      intro st i es HR
      induction es generalizing st i with
      | nil => exact ⟨st, rfl, pmExt_refl _⟩
      | cons v rest ihrest =>
        have hsE : sizeEs (v :: rest) = 1 + sizeA v + sizeEs rest := rfl
        rw [hsE] at HR
        have hpmif : (emit (if i = 0 then emit st "\n" else st) (toString i ++ ": ")).ptrmap
            = st.ptrmap := by
          by_cases hi : i = 0 <;> simp [hi] <;> rfl
        have HP2 : unvisited heap
            (emit (if i = 0 then emit st "\n" else st) (toString i ++ ": ")).ptrmap
            * (sizeEs heap + 1) + sizeA v < f := by
          rw [hpmif]
          omega
        obtain ⟨st3, hok3, hext3⟩ :=
          IHP (emit (if i = 0 then emit st "\n" else st) (toString i ++ ": ")) v HP2
        rw [hpmif] at hext3
        have hU3 : unvisited heap st3.ptrmap ≤ unvisited heap st.ptrmap :=
          unvisited_mono heap _ _ hext3
        have hmul := mul_succ_le _ _ (sizeEs heap + 1) hU3
        have hpm3 : (emit st3 "\n").ptrmap = st3.ptrmap := rfl
        have HR3 : unvisited heap (emit st3 "\n").ptrmap * (sizeEs heap + 1)
            + sizeEs rest < f := by
          rw [hpm3]
          omega
        obtain ⟨st4, hok4, hext4⟩ := IHR (emit st3 "\n") (i + 1) rest HR3
        rw [hpm3] at hext4
        refine ⟨st4, ?_, pmExt_trans _ _ _ hext3 hext4⟩
        simp only [pprintElems, hok3, hok4]

end Igo

namespace Igo

/-- C10: the debug pretty-printer terminates on every AST value over
any heap, including values whose sub-trees are shared or cyclic through
pointers: `pprintFuel` fuel always suffices. The first time a pointer is
printed its output line number is recorded in the pointer map keyed by
pointer identity (the concrete run on the self-referential
`ast.Object` heap records line 0 for pointer 0 and prints the
back-reference `(obj @ 0)` on the revisit), and any later visit of a
recorded pointer prints the back-reference instead of recursing into
the pointee. -/
theorem c10_printer_termination :
    (∀ (heap : List AVal) (st : PSt) (v : AVal),
      (pprint heap (pprintFuel heap st.ptrmap v) st v).isSome = true) ∧
    pprint [AVal.strukt "ast.Object" [("Decl", AVal.ptr 0)]] 5 ⟨[], 0, ""⟩ (AVal.ptr 0)
      = some ⟨[(0, 0)], 2, "*ast.Object \x7b\nDecl: *(obj @ 0)\n\x7d"⟩ ∧
    (∀ (heap : List AVal) (st : PSt) (a ln fuel : Nat),
      lookupPtr st.ptrmap a = some ln →
      pprint heap (fuel + 1) st (AVal.ptr a)
        = some (emit (emit st "*") ("(obj @ " ++ toString ln ++ ")"))) := by
  refine ⟨?_, by decide, ?_⟩
  · intro heap st v
    obtain ⟨st', hok, -⟩ :=
      (pprint_sufficient (pprintFuel heap st.ptrmap v) heap).1 st v (by
        simp only [pprintFuel]
        omega)
    rw [hok]
    rfl
  · intro heap st a ln fuel hlk
    have hpm : (emit st "*").ptrmap = st.ptrmap := rfl
    simp only [pprint, hpm, hlk]



/-- C10, witness for the back-reference branch of
`c10_printer_termination` at a concrete recorded pointer. -/
theorem c10_witness :
    pprint [] 1 ⟨[(3, 7)], 0, ""⟩ (AVal.ptr 3)
      = some (emit (emit ⟨[(3, 7)], 0, ""⟩ "*") ("(obj @ " ++ toString 7 ++ ")")) :=
  c10_printer_termination.2.2 [] ⟨[(3, 7)], 0, ""⟩ 3 7 0 (by decide)

end Igo
